import Mathlib

/-!
Shallow embedding of the geofencing decision engine of `src/src/App.jsx`
(geo-fence-app): the `LocationFilter` class (reading window, filtered
position, accuracy quality), the `checkPolygonContainment` evaluator, the
`updatePolygonStatus` zone-transition tracker, and the timer/effect logic
of the `App` controller. JavaScript numbers are modelled as rationals,
wall-clock times as integers.
-/

namespace GeoFence

/-- One location reading as handled by `LocationFilter`: the object
`{ lat, lng, accuracy, timestamp }` built in `handlePositionUpdate` and
stored (with `timestamp` overwritten) in `this.readings`. -/
structure Reading where
  lat : ℚ
  lng : ℚ
  accuracy : ℚ
  timestamp : ℤ
deriving DecidableEq, Repr

/-- Constant `this.maxReadings = 5` in the `LocationFilter` constructor. -/
def maxReadings : ℕ := 5

/-- Constant `this.accuracyThreshold = 100` in the `LocationFilter` constructor. -/
def accuracyThreshold : ℚ := 100

/-- Method `LocationFilter.addReading` (App.jsx lines 151-165): push the incoming
position with `timestamp: Date.now()`, `shift()` when the length exceeds
`maxReadings`, then drop readings whose age reaches 30000 ms. The two
`Date.now()` calls of the method are the single instant `now`. -/
def addReading (readings : List Reading) (pos : Reading) (now : ℤ) : List Reading :=
  let pushed := readings ++ [{ pos with timestamp := now }]
  let capped := if maxReadings < pushed.length then pushed.drop 1 else pushed
  capped.filter (fun r => now - r.timestamp < 30000)

/-- The expression `this.readings.filter((r) => r.accuracy <= this.accuracyThreshold)`
inside `getFilteredPosition`. -/
def goodReadings (readings : List Reading) : List Reading :=
  readings.filter (fun r => r.accuracy ≤ accuracyThreshold)

/-- The expression `this.readings.reduce((best, current) => current.accuracy < best.accuracy
? current : best)`: JavaScript `reduce` without an initial value starts from
the first element and folds over the rest. -/
def bestReading (first : Reading) (rest : List Reading) : Reading :=
  rest.foldl (fun best current =>
    if current.accuracy < best.accuracy then current else best) first

/-- The expression `Math.min(...goodReadings.map((r) => r.accuracy))` on a non-empty list:
the fold of the binary minimum over the accuracies. -/
def minAccuracy (first : Reading) (rest : List Reading) : ℚ :=
  rest.foldl (fun m r => min m r.accuracy) first.accuracy

/-- The `forEach` accumulation of `getFilteredPosition`: starting from
`totalWeight = weightedLat = weightedLng = 0`, each good reading adds
`weight = 1 / (accuracy + 1)`, `lat * weight` and `lng * weight`. -/
def weightSums (good : List Reading) : ℚ × ℚ × ℚ :=
  good.foldl
    (fun acc reading =>
      let weight := 1 / (reading.accuracy + 1)
      (acc.1 + weight, acc.2.1 + reading.lat * weight, acc.2.2 + reading.lng * weight))
    (0, 0, 0)

/-- Method `LocationFilter.getFilteredPosition` (App.jsx lines 167-202): `null` on
an empty window; the best available reading verbatim when no reading meets
the accuracy threshold; otherwise the accuracy-weighted average with the
minimum good accuracy and `timestamp: Date.now()` (the parameter `now`). -/
def getFilteredPosition (readings : List Reading) (now : ℤ) : Option Reading :=
  match readings with
  | [] => none
  | r :: rs =>
    match goodReadings (r :: rs) with
    | [] => some (bestReading r rs)
    | g :: gs =>
      let s := weightSums (g :: gs)
      some { lat := s.2.1 / s.1
             lng := s.2.2 / s.1
             accuracy := minAccuracy g gs
             timestamp := now }

/-- The five strings returned by `LocationFilter.getAccuracyQuality`. -/
inductive AccuracyQuality where
  | unknown
  | excellent
  | good
  | fair
  | poor
deriving DecidableEq, Repr

/-- The threshold chain of `getAccuracyQuality` (App.jsx lines 208-211):
`< 20 → excellent`, `< 50 → good`, `< 100 → fair`, else `poor`. -/
def classifyAccuracy (accuracy : ℚ) : AccuracyQuality :=
  if accuracy < 20 then .excellent
  else if accuracy < 50 then .good
  else if accuracy < 100 then .fair
  else .poor

/-- Method `LocationFilter.getAccuracyQuality` (App.jsx lines 204-212): classify
the filtered position's accuracy, `unknown` when the filter returns null. -/
def getAccuracyQuality (readings : List Reading) (now : ℤ) : AccuracyQuality :=
  match getFilteredPosition readings now with
  | none => .unknown
  | some filtered => classifyAccuracy filtered.accuracy

/-- A sequence of `addReading` calls from the initial empty window; each
call carries the incoming position and the processing instant. -/
def runFilter (calls : List (Reading × ℤ)) : List Reading :=
  calls.foldl (fun st c => addReading st c.1 c.2) []

/-! ## Zone transition tracker (`updatePolygonStatus`) -/

/-- One toast emitted by `updatePolygonStatus`, tagged by which branch
produced it; `NoChange` stands for the branches that emit no toast.
`OutsideInfo` translates the `"You are outside the monitored zones"`
branch (reachable only when the containment changed to none from none,
which the outer inequality guard makes impossible). -/
inductive TransitionEvent where
  | NoChange
  | Entered (zone : ℕ)
  | Exited (zone : ℕ)
  | MovedBetween (zoneFrom zoneTo : ℕ)
  | OutsideInfo
deriving DecidableEq, Repr

/-- Function `updatePolygonStatus` (App.jsx lines 290-323) as a step on the
remembered `currentPolygon` state: when the newly computed `polygonIndex`
differs from the state, emit the matching toast and store the new index;
otherwise emit nothing and leave the state unchanged. -/
def updatePolygonStatus (currentPolygon polygonIndex : Option ℕ) :
    Option ℕ × TransitionEvent :=
  if polygonIndex ≠ currentPolygon then
    let prevPolygon := currentPolygon
    let event :=
      match polygonIndex with
      | none =>
        match prevPolygon with
        | some p => TransitionEvent.Exited p
        | none => TransitionEvent.OutsideInfo
      | some i =>
        match prevPolygon with
        | none => TransitionEvent.Entered i
        | some p =>
          if p ≠ i then TransitionEvent.MovedBetween p i else TransitionEvent.NoChange
    (polygonIndex, event)
  else (currentPolygon, TransitionEvent.NoChange)

/-- Feed a sequence of containment results through `updatePolygonStatus`,
collecting the emitted events. -/
def runTracker (start : Option ℕ) (inputs : List (Option ℕ)) :
    Option ℕ × List TransitionEvent :=
  inputs.foldl
    (fun acc c =>
      let step := updatePolygonStatus acc.1 c
      (step.1, acc.2 ++ [step.2]))
    (start, [])

/-! ## Containment evaluator (`checkPolygonContainment`)

The per-feature loop, the `geometry.type === "Polygon"` guard and the
`try`/`catch` around the turf calls are code of the repository; the turf
library itself is external, so the two geometric primitives are abstract
parameters: `polyValid rings` models whether `turf.polygon(rings)` returns
normally (rather than throwing; that throw happens inside the `try`, and
the `catch` turns it into a skip), and `inPoly rings pt` models
`turf.booleanPointInPolygon`. The `try` wraps only the two turf calls: the
guard `feature.geometry.type === "Polygon"` (App.jsx line 273) sits
outside it, so an entry whose `geometry` member is absent makes that
member access throw a TypeError no `catch` intercepts. An entry is
therefore an `Option Feature` — its `geometry` member, when present — and
the evaluator over raw entries is `Except`-valued; `checkPolygonContainment`
is its restriction to collections whose entries all carry a geometry. -/

/-- The geometry object of one entry of `geoJsonData.features`, when the
entry has one: whether its `type` is `"Polygon"`, and its `coordinates`
(a list of rings). -/
structure Feature where
  isPolygonType : Bool
  rings : List (List (ℚ × ℚ))
deriving DecidableEq, Repr

/-- The body of one loop iteration of `checkPolygonContainment`: the
feature is a hit when its type is Polygon, `turf.polygon` does not throw,
and the point-in-polygon test succeeds. -/
def featureContains (polyValid : List (List (ℚ × ℚ)) → Bool)
    (inPoly : List (List (ℚ × ℚ)) → ℚ × ℚ → Bool)
    (pt : ℚ × ℚ) (f : Feature) : Bool :=
  f.isPolygonType && polyValid f.rings && inPoly f.rings pt

/-- The indexed `for` loop of `checkPolygonContainment`: return the first
index (counting from `i`) whose feature hits, else null. -/
def containLoop (test : Feature → Bool) : List Feature → ℕ → Option ℕ
  | [], _ => none
  | f :: fs, i => if test f then some i else containLoop test fs (i + 1)

/-- Function `checkPolygonContainment` (App.jsx lines 265-287): null when
`geoJsonData?.features` is absent, otherwise the first feature index whose
polygon contains the point. -/
def checkPolygonContainment (polyValid : List (List (ℚ × ℚ)) → Bool)
    (inPoly : List (List (ℚ × ℚ)) → ℚ × ℚ → Bool)
    (pt : ℚ × ℚ) (features : Option (List Feature)) : Option ℕ :=
  match features with
  | none => none
  | some fs => containLoop (featureContains polyValid inPoly pt) fs 0

/-- The loop of `checkPolygonContainment` over raw entries, each the
`geometry` member of a feature, possibly absent: on an entry with an
absent geometry, the access `feature.geometry.type` (App.jsx line 273,
outside the `try`/`catch`) throws an uncaught TypeError that aborts the
whole evaluation (`Except.error`); on a present geometry the iteration
behaves as `containLoop`. -/
def containLoopJs (test : Feature → Bool) :
    List (Option Feature) → ℕ → Except Unit (Option ℕ)
  | [], _ => Except.ok none
  | none :: _, _ => Except.error ()
  | some f :: fs, i =>
    if test f then Except.ok (some i) else containLoopJs test fs (i + 1)

/-- Function `checkPolygonContainment` over raw feature entries, with the
uncaught-TypeError path of a missing `geometry` member represented in the
result; null when `geoJsonData?.features` is absent. -/
def checkPolygonContainmentJs (polyValid : List (List (ℚ × ℚ)) → Bool)
    (inPoly : List (List (ℚ × ℚ)) → ℚ × ℚ → Bool)
    (pt : ℚ × ℚ) (features : Option (List (Option Feature))) : Except Unit (Option ℕ) :=
  match features with
  | none => Except.ok none
  | some fs => containLoopJs (featureContains polyValid inPoly pt) fs 0

/-! ## Tracking session controller: timeout retry timer and effects -/

/-- The controller state touched by the cited code: whether a geolocation
watch is active (`watchId.current`), the deadlines of pending
`setTimeout(() => requestLocationPermission(), 2000)` timers (the timer id
is discarded by `handleError`, so no code can pass it to `clearTimeout`),
and how many times `requestLocationPermission` has run. -/
structure CtrlState where
  watchActive : Bool
  retryDeadlines : List ℤ
  startCount : ℕ
deriving DecidableEq, Repr

/-- Function `requestLocationPermission` as far as the controller state goes: it
replaces the watch (new subscription) and counts as one start. It clears
the previous watch but touches no timeout. -/
def requestLocationPermission (st : CtrlState) : CtrlState :=
  { st with watchActive := true, startCount := st.startCount + 1 }

/-- The `TIMEOUT` case of `handleError` (App.jsx lines 381-386):
`setTimeout(() => requestLocationPermission(), 2000)` schedules one retry
2000 ms from now; its return value is dropped. -/
def handleTimeoutError (st : CtrlState) (now : ℤ) : CtrlState :=
  { st with retryDeadlines := st.retryDeadlines ++ [now + 2000] }

/-- The cleanup effect (App.jsx lines 495-501): on teardown it runs only
`navigator.geolocation.clearWatch(watchId.current)`; no `clearTimeout`
appears anywhere in the component. -/
def cleanupEffect (st : CtrlState) : CtrlState :=
  { st with watchActive := false }

/-- The JavaScript event loop firing a due retry timer: the scheduled
callback `() => requestLocationPermission()` runs unconditionally once its
deadline is reached, since nothing cancelled it. -/
def fireRetry (st : CtrlState) (deadline : ℤ) : CtrlState :=
  if deadline ∈ st.retryDeadlines then
    requestLocationPermission { st with retryDeadlines := st.retryDeadlines.erase deadline }
  else st

/-- Controller events for a run: a source timeout error at an instant, the
subscription teardown (`stop()` / cleanup effect), and the event loop
firing the timer with the given deadline. -/
inductive CtrlEvent where
  | timeoutError (now : ℤ)
  | stop
  | fire (deadline : ℤ)
deriving DecidableEq, Repr

/-- One controller step per event. -/
def ctrlStep (st : CtrlState) : CtrlEvent → CtrlState
  | .timeoutError now => handleTimeoutError st now
  | .stop => cleanupEffect st
  | .fire deadline => fireRetry st deadline

/-- Run a controller event sequence from a state. -/
def runCtrl (st : CtrlState) (events : List CtrlEvent) : CtrlState :=
  events.foldl ctrlStep st

/-- App state visible to the start-tracking effects: whether the zone
collection has loaded (`geoJsonLoaded`) and whether the position
subscription has been requested. -/
structure AppState where
  geoJsonLoaded : Bool
  trackingStarted : Bool
deriving DecidableEq, Repr

/-- The start-tracking effect of the first variant (App.jsx lines
489-492): `useEffect(() => { requestLocationPermission(); }, ...)` — it
starts tracking unconditionally when it runs. -/
def startEffectV1 (st : AppState) : AppState :=
  { st with trackingStarted := true }

/-- The start-tracking effect of the second variant (App.jsx lines
1176-1180): `if (geoJsonLoaded) { requestLocationPermission(); }` — it
starts tracking only when the zone data has loaded. -/
def startEffectV2 (st : AppState) : AppState :=
  if st.geoJsonLoaded then { st with trackingStarted := true } else st

/-- On mount, both variants render with `geoJsonLoaded` initialized to
`false` and no tracking. In the first variant the zone fetch is an
asynchronous network request whose completion callback runs after the
mount-time effects, so the start-tracking effect runs on this state. -/
def mountState : AppState :=
  { geoJsonLoaded := false, trackingStarted := false }

/-! ## Helper lemmas -/

theorem addReading_length_le {st : List Reading} (pos : Reading) (now : ℤ)
    (h : st.length ≤ maxReadings) : (addReading st pos now).length ≤ maxReadings := by
  simp only [addReading]
  split
  · exact le_trans (List.length_filter_le _ _) (by simp; omega)
  · next hlt =>
    refine le_trans (List.length_filter_le _ _) ?_
    simp at hlt ⊢
    omega

theorem runFilter_length_le (calls : List (Reading × ℤ)) :
    (runFilter calls).length ≤ maxReadings := by
  have aux : ∀ (cs : List (Reading × ℤ)) (st : List Reading), st.length ≤ maxReadings →
      (cs.foldl (fun st c => addReading st c.1 c.2) st).length ≤ maxReadings := by
    intro cs
    induction cs with
    | nil => intro st h; simpa using h
    | cons c cs ih => intro st h; exact ih _ (addReading_length_le c.1 c.2 h)
  exact aux calls [] (by simp [maxReadings])

theorem addReading_age {st : List Reading} {pos : Reading} {now : ℤ} :
    ∀ r ∈ addReading st pos now, now - r.timestamp < 30000 := by
  intro r hr
  unfold addReading at hr
  simp only [List.mem_filter, decide_eq_true_eq] at hr
  exact hr.2

theorem addReading_mem_new (st : List Reading) (pos : Reading) (now : ℤ) :
    { pos with timestamp := now } ∈ addReading st pos now := by
  unfold addReading
  rw [List.mem_filter]
  refine ⟨?_, by simp⟩
  split
  · next hlt =>
    cases st with
    | nil => simp [maxReadings] at hlt
    | cons s st => simp
  · simp

theorem getFilteredPosition_ne_none_of_ne_nil {readings : List Reading}
    (h : readings ≠ []) (now : ℤ) : getFilteredPosition readings now ≠ none := by
  cases readings with
  | nil => exact absurd rfl h
  | cons r rs =>
    cases hg : goodReadings (r :: rs) <;> simp [getFilteredPosition, hg]

/-! ## Claims -/

/-- C2: the zone transition tracker implements exactly the stated state
machine: the new state is always the incoming containment; equal
containment emits `NoChange`; `none` after `some z` emits `Exited z`;
`some z` after `none` emits `Entered z`; a different `some` emits
`MovedBetween`; `none` after `none` emits `NoChange`; and the sequence
`[none, 0, 0, 1, none, none]` fed from the initial `none` state produces
`[NoChange, Entered 0, NoChange, MovedBetween 0 1, Exited 1, NoChange]`. -/
theorem claim_C2 :
    (∀ prev cur, (updatePolygonStatus prev cur).1 = cur) ∧
    (∀ x, updatePolygonStatus x x = (x, TransitionEvent.NoChange)) ∧
    (∀ z, updatePolygonStatus (some z) none = (none, TransitionEvent.Exited z)) ∧
    (∀ z, updatePolygonStatus none (some z) = (some z, TransitionEvent.Entered z)) ∧
    (∀ z1 z2, updatePolygonStatus (some z1) (some z2) =
      if z2 = z1 then (some z1, TransitionEvent.NoChange)
      else (some z2, TransitionEvent.MovedBetween z1 z2)) ∧
    (updatePolygonStatus none none = (none, TransitionEvent.NoChange)) ∧
    (runTracker none [none, some 0, some 0, some 1, none, none] =
      (none, [TransitionEvent.NoChange, TransitionEvent.Entered 0,
              TransitionEvent.NoChange, TransitionEvent.MovedBetween 0 1,
              TransitionEvent.Exited 1, TransitionEvent.NoChange])) := by
  refine ⟨?_, ?_, ?_, ?_, ?_, ?_, ?_⟩
  · intro prev cur
    unfold updatePolygonStatus
    split
    · rfl
    · next h => simpa using (not_ne_iff.mp h).symm
  · intro x; simp [updatePolygonStatus]
  · intro z; simp [updatePolygonStatus]
  · intro z; simp [updatePolygonStatus]
  · intro z1 z2
    by_cases h : z2 = z1
    · subst h; simp [updatePolygonStatus]
    · simp [updatePolygonStatus, h, Ne.symm h]
  · simp [updatePolygonStatus]
  · rfl

/-- C3: after any sequence of `addReading` calls, immediately after each
call the window holds at most 5 entries and no entry older than 30000 ms
relative to the instant of that call; the state before the call is the one
produced by the arbitrary earlier call sequence. -/
theorem claim_C3 :
    (∀ calls : List (Reading × ℤ), (runFilter calls).length ≤ 5) ∧
    (∀ (calls : List (Reading × ℤ)) (pos : Reading) (now : ℤ),
      (addReading (runFilter calls) pos now).length ≤ 5 ∧
      ∀ r ∈ addReading (runFilter calls) pos now, now - r.timestamp < 30000) := by
  refine ⟨fun calls => runFilter_length_le calls, fun calls pos now => ⟨?_, addReading_age⟩⟩
  exact addReading_length_le pos now (runFilter_length_le calls)

/-- C10: the reading just added always survives the capacity drop and the
age pruning, so immediately after every `addReading` the window is
non-empty and `getFilteredPosition` does not return none. -/
theorem claim_C10 (st : List Reading) (pos : Reading) (now t : ℤ) :
    { pos with timestamp := now } ∈ addReading st pos now ∧
    addReading st pos now ≠ [] ∧
    getFilteredPosition (addReading st pos now) t ≠ none := by
  have hmem := addReading_mem_new st pos now
  have hne := List.ne_nil_of_mem hmem
  exact ⟨hmem, hne, getFilteredPosition_ne_none_of_ne_nil hne t⟩

/-- A rank for quality labels, higher is better; `classifyAccuracy` never
returns `unknown`, so its rank is irrelevant. -/
def qualityScore : AccuracyQuality → ℕ
  | .poor => 0
  | .fair => 1
  | .good => 2
  | .excellent => 3
  | .unknown => 0

/-- C5: `getAccuracyQuality` is `unknown` exactly when the filter returns
none, otherwise it classifies the filtered accuracy by the half-open
intervals `[0,20) → excellent`, `[20,50) → good`, `[50,100) → fair`,
`[100,∞) → poor` (first match wins), the classification is antitone in the
accuracy, and the stated boundary inputs classify as stated. -/
theorem claim_C5 :
    (∀ (readings : List Reading) (now : ℤ),
      (getAccuracyQuality readings now = .unknown ↔
        getFilteredPosition readings now = none) ∧
      ∀ f, getFilteredPosition readings now = some f →
        getAccuracyQuality readings now = classifyAccuracy f.accuracy) ∧
    (∀ a : ℚ,
      (classifyAccuracy a = .excellent ↔ a < 20) ∧
      (classifyAccuracy a = .good ↔ 20 ≤ a ∧ a < 50) ∧
      (classifyAccuracy a = .fair ↔ 50 ≤ a ∧ a < 100) ∧
      (classifyAccuracy a = .poor ↔ 100 ≤ a)) ∧
    (∀ a b : ℚ, a ≤ b → qualityScore (classifyAccuracy b) ≤ qualityScore (classifyAccuracy a)) ∧
    (classifyAccuracy (19999 / 1000) = .excellent ∧ classifyAccuracy 20 = .good ∧
      classifyAccuracy (49999 / 1000) = .good ∧ classifyAccuracy 50 = .fair ∧
      classifyAccuracy (99999 / 1000) = .fair ∧ classifyAccuracy 100 = .poor) := by
  have hclass : ∀ a : ℚ,
      (classifyAccuracy a = .excellent ↔ a < 20) ∧
      (classifyAccuracy a = .good ↔ 20 ≤ a ∧ a < 50) ∧
      (classifyAccuracy a = .fair ↔ 50 ≤ a ∧ a < 100) ∧
      (classifyAccuracy a = .poor ↔ 100 ≤ a) := by
    intro a
    unfold classifyAccuracy
    split_ifs <;> simp_all <;>
      first
        | linarith
        | (intro h; linarith)
        | (constructor <;> first | linarith | (intro h; linarith))
  refine ⟨?_, hclass, ?_, ?_⟩
  · intro readings now
    constructor
    · unfold getAccuracyQuality
      cases h : getFilteredPosition readings now with
      | none => simp
      | some f =>
        simp only []
        constructor
        · intro habs
          exfalso
          unfold classifyAccuracy at habs
          split_ifs at habs <;> simp_all
        · intro habs; exact absurd habs (by simp)
    · intro f hf
      unfold getAccuracyQuality
      rw [hf]
  · intro a b hab
    unfold classifyAccuracy
    split_ifs <;> simp [qualityScore] <;> linarith
  · refine ⟨?_, ?_, ?_, ?_, ?_, ?_⟩ <;> unfold classifyAccuracy <;> norm_num

/-- C5 witness: the antitone part applied at accuracies 10 and 30. -/
theorem claim_C5_witness :
    (10 : ℚ) ≤ 30 ∧
    qualityScore (classifyAccuracy 30) ≤ qualityScore (classifyAccuracy 10) :=
  ⟨by norm_num, claim_C5.2.2.1 10 30 (by norm_num)⟩

/-- C6 counterexample: with one timeout error at time 0 and a `stop()`
(cleanup effect) before the 2000 ms deadline, the retry deadline is still
pending after the stop and the retry fires anyway, invoking
`requestLocationPermission` — the stop does not cancel it. -/
theorem claim_C6_counterexample :
    (runCtrl { watchActive := true, retryDeadlines := [], startCount := 0 }
        [CtrlEvent.timeoutError 0, CtrlEvent.stop]).retryDeadlines = [2000] ∧
    (runCtrl { watchActive := true, retryDeadlines := [], startCount := 0 }
        [CtrlEvent.timeoutError 0, CtrlEvent.stop]).watchActive = false ∧
    (runCtrl { watchActive := true, retryDeadlines := [], startCount := 0 }
        [CtrlEvent.timeoutError 0, CtrlEvent.stop, CtrlEvent.fire 2000]).startCount = 1 := by
  refine ⟨rfl, rfl, ?_⟩
  rfl

/-- C6 amended: a timeout error schedules exactly one retry, due 2000 ms
later; the cleanup effect (`stop()`) clears only the watch and leaves the
scheduled retry deadlines untouched, and a pending retry that reaches its
deadline fires `requestLocationPermission` regardless. -/
theorem claim_C6_amended :
    (∀ (st : CtrlState) (now : ℤ),
      (handleTimeoutError st now).retryDeadlines = st.retryDeadlines ++ [now + 2000] ∧
      (handleTimeoutError st now).watchActive = st.watchActive ∧
      (handleTimeoutError st now).startCount = st.startCount) ∧
    (∀ st : CtrlState,
      (cleanupEffect st).retryDeadlines = st.retryDeadlines ∧
      (cleanupEffect st).watchActive = false ∧
      (cleanupEffect st).startCount = st.startCount) ∧
    (∀ (st : CtrlState) (d : ℤ), d ∈ st.retryDeadlines →
      (fireRetry st d).startCount = st.startCount + 1 ∧
      (fireRetry st d).watchActive = true) := by
  refine ⟨fun st now => ⟨rfl, rfl, rfl⟩, fun st => ⟨rfl, rfl, rfl⟩, ?_⟩
  intro st d hd
  unfold fireRetry
  rw [if_pos hd]
  exact ⟨rfl, rfl⟩

/-- C6 witness: the firing part of the amended claim at a concrete pending
deadline. -/
theorem claim_C6_amended_witness :
    (2000 : ℤ) ∈ ({ watchActive := false, retryDeadlines := [2000], startCount := 0 } :
      CtrlState).retryDeadlines ∧
    (fireRetry { watchActive := false, retryDeadlines := [2000], startCount := 0 } 2000).startCount
      = 1 := by
  have h := claim_C6_amended.2.2
    { watchActive := false, retryDeadlines := [2000], startCount := 0 } 2000 (by simp)
  exact ⟨by simp, h.1⟩

/-- C8 counterexample: in the first variant, the start-tracking effect runs
on the mount state, where the asynchronous zone fetch has not completed,
and starts the position subscription while `geoJsonLoaded` is still false.
-/
theorem claim_C8_counterexample :
    (startEffectV1 mountState).trackingStarted = true ∧
    (startEffectV1 mountState).geoJsonLoaded = false :=
  ⟨rfl, rfl⟩

/-- C8 amended: only the second variant gates the position subscription on
the zone load: its start-tracking effect leaves the mount state unchanged
and can start tracking only from a state where the zone data has loaded.
The first variant starts tracking on mount regardless. -/
theorem claim_C8_amended :
    startEffectV2 mountState = mountState ∧
    (∀ st : AppState, (startEffectV2 st).trackingStarted = true →
      st.geoJsonLoaded = true ∨ st.trackingStarted = true) ∧
    (∀ st : AppState, st.geoJsonLoaded = true → (startEffectV2 st).trackingStarted = true) := by
  refine ⟨rfl, ?_, ?_⟩
  · intro st h
    unfold startEffectV2 at h
    by_cases hg : st.geoJsonLoaded
    · exact Or.inl hg
    · right; simpa [hg] using h
  · intro st h
    simp [startEffectV2, h]

/-- C8 witness: the guard implication of the amended claim at the loaded,
not-yet-tracking state. -/
theorem claim_C8_amended_witness :
    (startEffectV2 { geoJsonLoaded := true, trackingStarted := false }).trackingStarted = true ∧
    (({ geoJsonLoaded := true, trackingStarted := false } : AppState).geoJsonLoaded = true ∨
      ({ geoJsonLoaded := true, trackingStarted := false } : AppState).trackingStarted = true) :=
  ⟨rfl, claim_C8_amended.2.1 { geoJsonLoaded := true, trackingStarted := false } rfl⟩

/-- Two incoming fixes that agree on latitude, longitude and accuracy,
differing at most in the source-reported `timestamp` field. -/
def sameFix (f g : Reading) : Prop :=
  f.lat = g.lat ∧ f.lng = g.lng ∧ f.accuracy = g.accuracy

theorem addReading_timestamp_irrelevant {f g : Reading} (st : List Reading) (now : ℤ)
    (h : sameFix f g) : addReading st f now = addReading st g now := by
  obtain ⟨h1, h2, h3⟩ := h
  unfold addReading
  have : ({ f with timestamp := now } : Reading) = { g with timestamp := now } := by
    cases f; cases g; simp_all
  rw [this]

/-- C9: the filter's outputs do not depend on source-reported timestamps:
two `addReading` call sequences at the same processing instants whose
fixes differ only in `timestamp` produce identical windows, and every
`getFilteredPosition` result agrees on latitude, longitude and accuracy
(indeed on everything), because insertion overwrites the fix's timestamp
with the processing time. -/
theorem claim_C9 (cs1 cs2 : List (Reading × ℤ))
    (h : List.Forall₂ (fun a b => a.2 = b.2 ∧ sameFix a.1 b.1) cs1 cs2) :
    runFilter cs1 = runFilter cs2 ∧
    ∀ now, getFilteredPosition (runFilter cs1) now = getFilteredPosition (runFilter cs2) now := by
  have aux : ∀ {l1 l2 : List (Reading × ℤ)},
      List.Forall₂ (fun a b => a.2 = b.2 ∧ sameFix a.1 b.1) l1 l2 →
      ∀ st : List Reading,
        l1.foldl (fun st c => addReading st c.1 c.2) st =
        l2.foldl (fun st c => addReading st c.1 c.2) st := by
    intro l1 l2 hf
    induction hf with
    | nil => intro st; rfl
    | cons hab _ ih =>
      intro st
      simp only [List.foldl_cons]
      rw [hab.1, addReading_timestamp_irrelevant st _ hab.2]
      exact ih _
  have hrun : runFilter cs1 = runFilter cs2 := aux h []
  exact ⟨hrun, fun now => by rw [hrun]⟩

/-- C9 witness: two one-call sequences whose fixes differ only in the
reported timestamp produce the same window and the same filter output. -/
theorem claim_C9_witness :
    runFilter [(⟨1, 2, 3, 100⟩, 0)] = runFilter [(⟨1, 2, 3, 999999⟩, 0)] ∧
    getFilteredPosition (runFilter [(⟨1, 2, 3, 100⟩, 0)]) 7 =
      getFilteredPosition (runFilter [(⟨1, 2, 3, 999999⟩, 0)]) 7 := by
  have h := claim_C9 [(⟨1, 2, 3, 100⟩, 0)] [(⟨1, 2, 3, 999999⟩, 0)]
    (List.Forall₂.cons ⟨rfl, rfl, rfl, rfl⟩ List.Forall₂.nil)
  exact ⟨h.1, h.2 7⟩

/-! ## Reference definition of the filtered position (claim C1) -/

/-- Weight of a reading per the spec: `1 / (accuracyMeters + 1)`. -/
def weightOf (r : Reading) : ℚ := 1 / (r.accuracy + 1)

/-- Reference definition following the specification text: none on an
empty window; if no reading has accuracy at most 100, the first reading of
smallest accuracy, verbatim; otherwise the weighted centroid of the good
readings (weighted value = sum of value times weight over sum of weights)
with accuracy the minimum among the good readings and the computation
time as timestamp. -/
def filteredPositionSpec (readings : List Reading) (now : ℤ) : Option Reading :=
  if readings = [] then none
  else
    let good := readings.filter fun r => r.accuracy ≤ 100
    if good = [] then
      readings.find? fun x => readings.all fun y => x.accuracy ≤ y.accuracy
    else
      some { lat := (good.map fun r => r.lat * weightOf r).sum / (good.map weightOf).sum
             lng := (good.map fun r => r.lng * weightOf r).sum / (good.map weightOf).sum
             accuracy := ((good.map fun r => r.accuracy).min?).getD 0
             timestamp := now }

theorem bestReading_step (first s : Reading) (rs : List Reading) :
    bestReading first (s :: rs) =
      bestReading (if s.accuracy < first.accuracy then s else first) rs := by
  simp [bestReading]

theorem bestReading_mem : ∀ (rest : List Reading) (first : Reading),
    bestReading first rest ∈ first :: rest := by
  intro rest
  induction rest with
  | nil => intro first; simp [bestReading]
  | cons s rs ih =>
    intro first
    rw [bestReading_step]
    rcases List.mem_cons.mp (ih (if s.accuracy < first.accuracy then s else first)) with h | h
    · rw [h]
      split <;> simp
    · simp [h]

theorem bestReading_le : ∀ (rest : List Reading) (first : Reading),
    ∀ y ∈ first :: rest, (bestReading first rest).accuracy ≤ y.accuracy := by
  intro rest
  induction rest with
  | nil =>
    intro first y hy
    rw [List.mem_singleton] at hy
    subst hy
    simp [bestReading]
  | cons s rs ih =>
    intro first y hy
    rw [bestReading_step]
    have hhead := ih (if s.accuracy < first.accuracy then s else first)
      (if s.accuracy < first.accuracy then s else first) (by simp)
    rcases List.mem_cons.mp hy with h | h
    · subst h
      refine le_trans hhead ?_
      split <;> simp_all <;> linarith
    rcases List.mem_cons.mp h with h2 | h2
    · subst h2
      refine le_trans hhead ?_
      split
      · simp
      · next hn => simpa using le_of_not_lt hn
    · exact ih _ y (by simp [h2])

theorem bestReading_first_min : ∀ (rest : List Reading) (first : Reading),
    ∃ l₁ l₂, first :: rest = l₁ ++ bestReading first rest :: l₂ ∧
      ∀ y ∈ l₁, (bestReading first rest).accuracy < y.accuracy := by
  intro rest
  induction rest with
  | nil =>
    intro first
    exact ⟨[], [], by simp [bestReading], by simp⟩
  | cons s rs ih =>
    intro first
    by_cases hs : s.accuracy < first.accuracy
    · obtain ⟨l₁, l₂, heq, hstrict⟩ := ih s
      have hb : bestReading first (s :: rs) = bestReading s rs := by
        rw [bestReading_step, if_pos hs]
      refine ⟨first :: l₁, l₂, ?_, ?_⟩
      · rw [hb, List.cons_append, ← heq]
      · intro y hy
        rcases List.mem_cons.mp hy with h | h
        · subst h
          have := bestReading_le rs s s (by simp)
          rw [hb]
          linarith
        · rw [hb]; exact hstrict y h
    · obtain ⟨l₁, l₂, heq, hstrict⟩ := ih first
      have hb : bestReading first (s :: rs) = bestReading first rs := by
        rw [bestReading_step, if_neg hs]
      cases l₁ with
      | nil =>
        have hfirst : bestReading first rs = first := by
          have := heq
          simp at this
          exact this.1.symm
        refine ⟨[], s :: rs, ?_, by simp⟩
        rw [hb, hfirst]
        simp
      | cons a l₁ =>
        have ha : a = first := by
          have := congrArg (fun l => l.head? ) heq
          simpa using this.symm
        have htail : rs = l₁ ++ bestReading first rs :: l₂ := by
          rw [List.cons_append] at heq
          rw [ha] at heq
          exact (List.cons_injective.eq_iff.mp heq)
        refine ⟨first :: s :: l₁, l₂, ?_, ?_⟩
        · rw [hb, List.cons_append, List.cons_append, ← htail]
        · intro y hy
          have hlt_first : (bestReading first rs).accuracy < first.accuracy := by
            have := hstrict a (by simp)
            rw [ha] at this
            exact this
          rcases List.mem_cons.mp hy with h | h
          · subst h; rw [hb]; exact hlt_first
          rcases List.mem_cons.mp h with h2 | h2
          · subst h2
            rw [hb]
            have := le_of_not_lt hs
            linarith
          · rw [hb]
            exact hstrict y (by simp [h2])

theorem find?_middle {α : Type} (p : α → Bool) : ∀ (l₁ : List α) (b : α) (l₂ : List α),
    (∀ y ∈ l₁, p y = false) → p b = true → (l₁ ++ b :: l₂).find? p = some b := by
  intro l₁
  induction l₁ with
  | nil =>
    intro b l₂ _ hb
    simp [List.find?, hb]
  | cons a t ih =>
    intro b l₂ hfalse hb
    have ha : p a = false := hfalse a (by simp)
    rw [List.cons_append, List.find?_cons, ha]
    exact ih b l₂ (fun y hy => hfalse y (by simp [hy])) hb

theorem bestReading_find (first : Reading) (rest : List Reading) :
    ((first :: rest).find? fun x => (first :: rest).all fun y => x.accuracy ≤ y.accuracy) =
      some (bestReading first rest) := by
  obtain ⟨l₁, l₂, heq, hstrict⟩ := bestReading_first_min rest first
  have hmem := bestReading_mem rest first
  have hle := bestReading_le rest first
  set p : Reading → Bool := fun x => (first :: rest).all fun y => decide (x.accuracy ≤ y.accuracy)
    with hp
  have hpb : p (bestReading first rest) = true := by
    rw [hp]
    simp only [List.all_eq_true, decide_eq_true_eq]
    exact hle
  have hpfalse : ∀ y ∈ l₁, p y = false := by
    intro y hy
    by_contra hcon
    have hy_true : p y = true := by
      cases hpy : p y
      · exact absurd hpy hcon
      · rfl
    rw [hp] at hy_true
    simp only [List.all_eq_true, decide_eq_true_eq] at hy_true
    have h1 := hy_true (bestReading first rest) hmem
    have h2 := hstrict y hy
    linarith
  calc (first :: rest).find? p = (l₁ ++ bestReading first rest :: l₂).find? p := by rw [← heq]
    _ = some (bestReading first rest) := find?_middle p l₁ _ l₂ hpfalse hpb

theorem weightSums_eq (good : List Reading) :
    weightSums good =
      ((good.map weightOf).sum,
       (good.map fun r => r.lat * weightOf r).sum,
       (good.map fun r => r.lng * weightOf r).sum) := by
  have aux : ∀ (l : List Reading) (a b c : ℚ),
      l.foldl (fun acc reading =>
        let weight := 1 / (reading.accuracy + 1)
        (acc.1 + weight, acc.2.1 + reading.lat * weight, acc.2.2 + reading.lng * weight))
        (a, b, c) =
      (a + (l.map weightOf).sum, b + (l.map fun r => r.lat * weightOf r).sum,
        c + (l.map fun r => r.lng * weightOf r).sum) := by
    intro l
    induction l with
    | nil => intro a b c; simp
    | cons x xs ih =>
      intro a b c
      rw [List.foldl_cons]
      rw [ih]
      simp only [List.map_cons, List.sum_cons, Prod.mk.injEq, weightOf]
      refine ⟨by ring, by ring, by ring⟩
  have h := aux good 0 0 0
  simp only [zero_add] at h
  simpa [weightSums] using h

theorem minAccuracy_eq (g : Reading) (gs : List Reading) :
    minAccuracy g gs = (((g :: gs).map fun r => r.accuracy).min?).getD 0 := by
  simp [minAccuracy, List.min?, List.foldl_map]

/-- C1: `getFilteredPosition` meets its reference definition, the literal
transcription of the spec text: none exactly on an empty window; the first
reading of smallest accuracy, verbatim, when no reading has accuracy at
most 100; otherwise the `1 / (accuracy + 1)`-weighted centroid of the good
readings with the minimum good accuracy. -/
theorem claim_C1 (readings : List Reading) (now : ℤ) :
    getFilteredPosition readings now = filteredPositionSpec readings now := by
  have hgood : ∀ l : List Reading,
      goodReadings l = l.filter fun x => decide (x.accuracy ≤ 100) := fun _ => rfl
  cases readings with
  | nil => rfl
  | cons r rs =>
    unfold filteredPositionSpec
    rw [if_neg (by simp), ← hgood]
    cases hg : goodReadings (r :: rs) with
    | nil =>
      dsimp only
      rw [if_pos rfl]
      simp only [getFilteredPosition, hg]
      exact (bestReading_find r rs).symm
    | cons g gs =>
      dsimp only
      rw [if_neg (by simp)]
      simp only [getFilteredPosition, hg, weightSums_eq, minAccuracy_eq]

/-! ## Containment evaluator lemmas (claims C4 and C7) -/

theorem containLoop_eq_none (test : Feature → Bool) :
    ∀ (fs : List Feature) (i : ℕ),
      containLoop test fs i = none ↔ ∀ f ∈ fs, test f = false := by
  intro fs
  induction fs with
  | nil => intro i; simp [containLoop]
  | cons f fs ih =>
    intro i
    by_cases h : test f <;> simp [containLoop, h, ih (i + 1)]

theorem containLoop_eq_some (test : Feature → Bool) :
    ∀ (fs : List Feature) (i k : ℕ),
      containLoop test fs i = some k ↔
        ∃ j, k = i + j ∧ (∃ f, fs.get? j = some f ∧ test f = true) ∧
          ∀ m, m < j → ∀ g, fs.get? m = some g → test g = false := by
  intro fs
  induction fs with
  | nil => intro i k; simp [containLoop]
  | cons f fs ih =>
    intro i k
    by_cases h : test f
    · rw [containLoop, if_pos h]
      constructor
      · intro hk
        refine ⟨0, by simpa using hk.symm, ⟨f, by simp, h⟩, by omega⟩
      · rintro ⟨j, hkj, ⟨f2, hf2, ht2⟩, hmin⟩
        cases j with
        | zero => simp at hkj; simp [hkj]
        | succ j =>
          exact absurd h (by simpa using hmin 0 (by omega) f (by simp))
    · rw [containLoop, if_neg h]
      rw [ih (i + 1) k]
      constructor
      · rintro ⟨j, hkj, ⟨f2, hf2, ht2⟩, hmin⟩
        refine ⟨j + 1, by omega, ⟨f2, by simpa using hf2, ht2⟩, ?_⟩
        intro m hm g hg
        cases m with
        | zero =>
          simp at hg
          rw [← hg]
          cases ht : test f
          · rfl
          · exact absurd ht h
        | succ m => exact hmin m (by omega) g (by simpa using hg)
      · rintro ⟨j, hkj, ⟨f2, hf2, ht2⟩, hmin⟩
        cases j with
        | zero =>
          simp at hf2
          rw [← hf2] at ht2
          exact absurd ht2 h
        | succ j =>
          refine ⟨j, by omega, ⟨f2, by simpa using hf2, ht2⟩, ?_⟩
          intro m hm g hg
          exact hmin (m + 1) (by omega) g (by simpa using hg)

theorem containLoop_succ (test : Feature → Bool) :
    ∀ (fs : List Feature) (i : ℕ),
      containLoop test fs (i + 1) = (containLoop test fs i).map (fun k => k + 1) := by
  intro fs
  induction fs with
  | nil => intro i; rfl
  | cons f fs ih =>
    intro i
    by_cases h : test f
    · simp [containLoop, h]
    · rw [containLoop, if_neg h, containLoop, if_neg h]
      exact ih (i + 1)

theorem containLoop_append_some (test : Feature → Bool) {k : ℕ} :
    ∀ (xs : List Feature) (l : List Feature) (i : ℕ),
      containLoop test xs i = some k → containLoop test (xs ++ l) i = some k := by
  intro xs
  induction xs with
  | nil => intro l i h; exact absurd h (by simp [containLoop])
  | cons x xs ih =>
    intro l i h
    by_cases hx : test x
    · rw [containLoop, if_pos hx] at h
      rw [List.cons_append, containLoop, if_pos hx]
      exact h
    · rw [containLoop, if_neg hx] at h
      rw [List.cons_append, containLoop, if_neg hx]
      exact ih l (i + 1) h

theorem containLoop_append_none (test : Feature → Bool) :
    ∀ (xs : List Feature) (l : List Feature) (i : ℕ),
      containLoop test xs i = none →
      containLoop test (xs ++ l) i = containLoop test l (i + xs.length) := by
  intro xs
  induction xs with
  | nil => intro l i _; simp [containLoop]
  | cons x xs ih =>
    intro l i h
    by_cases hx : test x
    · rw [containLoop, if_pos hx] at h
      exact absurd h (by simp)
    · rw [containLoop, if_neg hx] at h
      rw [List.cons_append, containLoop, if_neg hx, ih l (i + 1) h]
      congr 1
      simp
      omega

theorem containLoop_some_bounds (test : Feature → Bool) :
    ∀ (fs : List Feature) (i k : ℕ),
      containLoop test fs i = some k → i ≤ k ∧ k < i + fs.length := by
  intro fs
  induction fs with
  | nil => intro i k h; exact absurd h (by simp [containLoop])
  | cons f fs ih =>
    intro i k h
    by_cases hx : test f
    · rw [containLoop, if_pos hx] at h
      have hk : i = k := by simpa using h
      subst hk
      simp only [List.length_cons]
      omega
    · rw [containLoop, if_neg hx] at h
      have := ih (i + 1) k h
      simp only [List.length_cons]
      omega

/-- C4: for every point and zone collection, `checkPolygonContainment`
returns exactly the first index whose feature contains the point (feature
of Polygon type, with rings accepted by `turf.polygon`, passing the
point-in-polygon test), none when no feature contains the point, and none
when no collection is loaded; being an `Option ℕ`, at most one index is
ever returned even when polygons overlap. The geometric primitives of the
external turf library are universally quantified. -/
theorem claim_C4 (polyValid : List (List (ℚ × ℚ)) → Bool)
    (inPoly : List (List (ℚ × ℚ)) → ℚ × ℚ → Bool) (pt : ℚ × ℚ) :
    (checkPolygonContainment polyValid inPoly pt none = none) ∧
    ∀ fs : List Feature,
      (∀ k, checkPolygonContainment polyValid inPoly pt (some fs) = some k ↔
        ((∃ f, fs.get? k = some f ∧ featureContains polyValid inPoly pt f = true) ∧
          ∀ m, m < k → ∀ g, fs.get? m = some g →
            featureContains polyValid inPoly pt g = false)) ∧
      (checkPolygonContainment polyValid inPoly pt (some fs) = none ↔
        ∀ f ∈ fs, featureContains polyValid inPoly pt f = false) := by
  refine ⟨rfl, fun fs => ⟨?_, ?_⟩⟩
  · intro k
    have h := containLoop_eq_some (featureContains polyValid inPoly pt) fs 0 k
    simpa [checkPolygonContainment] using h
  · exact containLoop_eq_none (featureContains polyValid inPoly pt) fs 0

theorem checkPolygonContainment_skip (polyValid : List (List (ℚ × ℚ)) → Bool)
    (inPoly : List (List (ℚ × ℚ)) → ℚ × ℚ → Bool) (pt : ℚ × ℚ) (b : Feature)
    (hb : b.isPolygonType = false ∨ polyValid b.rings = false) (xs ys : List Feature) :
    checkPolygonContainment polyValid inPoly pt (some (xs ++ b :: ys)) =
      (checkPolygonContainment polyValid inPoly pt (some (xs ++ ys))).map
        (fun i => if i < xs.length then i else i + 1) := by
  have htb : featureContains polyValid inPoly pt b = false := by
    unfold featureContains
    rcases hb with h | h <;> simp [h]
  set test := featureContains polyValid inPoly pt with htest
  show containLoop test (xs ++ b :: ys) 0 =
    (containLoop test (xs ++ ys) 0).map (fun i => if i < xs.length then i else i + 1)
  cases hx : containLoop test xs 0 with
  | some k =>
    rw [containLoop_append_some test xs (b :: ys) 0 hx,
      containLoop_append_some test xs ys 0 hx]
    have hk := containLoop_some_bounds test xs 0 k hx
    simp only [Option.map_some']
    rw [if_pos (by omega)]
  | none =>
    rw [containLoop_append_none test xs (b :: ys) 0 hx,
      containLoop_append_none test xs ys 0 hx]
    simp only [Nat.zero_add]
    rw [containLoop, if_neg (by simp [htb])]
    rw [containLoop_succ]
    cases hy : containLoop test ys xs.length with
    | none => rfl
    | some m =>
      have hm := containLoop_some_bounds test ys xs.length m hy
      simp only [Option.map_some']
      rw [if_neg (by omega)]

theorem containLoopJs_map_some (test : Feature → Bool) :
    ∀ (fs : List Feature) (i : ℕ),
      containLoopJs test (fs.map Option.some) i = Except.ok (containLoop test fs i) := by
  intro fs
  induction fs with
  | nil => intro i; rfl
  | cons f fs ih =>
    intro i
    rw [List.map_cons, containLoopJs, containLoop]
    by_cases h : test f
    · rw [if_pos h, if_pos h]
    · rw [if_neg h, if_neg h]
      exact ih (i + 1)

theorem containLoopJs_missing (test : Feature → Bool) :
    ∀ (xs : List Feature) (ys : List (Option Feature)) (i : ℕ),
      (∀ f ∈ xs, test f = false) →
      containLoopJs test (xs.map Option.some ++ none :: ys) i = Except.error () := by
  intro xs
  induction xs with
  | nil => intro ys i _; rfl
  | cons x xs ih =>
    intro ys i hfalse
    rw [List.map_cons, List.cons_append, containLoopJs,
      if_neg (by simp [hfalse x (by simp)])]
    exact ih ys (i + 1) (fun f hf => hfalse f (by simp [hf]))

/-- C7 counterexample: an entry whose `geometry` member is absent is not
skipped — evaluating it throws the uncaught TypeError of
`feature.geometry.type` (App.jsx line 273, outside the `try`/`catch`) and
aborts the evaluation, so the containing feature right after it is never
reached, although alone it would be found at index 0. -/
theorem claim_C7_counterexample :
    checkPolygonContainmentJs (fun _ => true) (fun _ _ => true) (0, 0)
        (some [none, some ⟨true, []⟩]) = Except.error () ∧
    checkPolygonContainmentJs (fun _ => true) (fun _ _ => true) (0, 0)
        (some [some (⟨true, []⟩ : Feature)]) = Except.ok (some 0) :=
  ⟨rfl, rfl⟩

/-- C7 amended: on a collection whose entries all carry a geometry member
the evaluator never throws (it agrees with the total evaluator), and a
malformed such entry — non-Polygon geometry type, or rings on which
`turf.polygon` throws inside the `try` — is skipped with the result for
the remaining entries unaffected beyond the forced index shift; an entry
with an absent geometry member instead throws an uncaught TypeError past
the evaluator's boundary as soon as the loop reaches it. -/
theorem claim_C7_amended (polyValid : List (List (ℚ × ℚ)) → Bool)
    (inPoly : List (List (ℚ × ℚ)) → ℚ × ℚ → Bool) (pt : ℚ × ℚ) :
    (∀ fs : List Feature,
      checkPolygonContainmentJs polyValid inPoly pt (some (fs.map Option.some)) =
        Except.ok (checkPolygonContainment polyValid inPoly pt (some fs))) ∧
    (∀ b : Feature, (b.isPolygonType = false ∨ polyValid b.rings = false) →
      ∀ xs ys : List Feature,
        checkPolygonContainment polyValid inPoly pt (some (xs ++ b :: ys)) =
          (checkPolygonContainment polyValid inPoly pt (some (xs ++ ys))).map
            (fun i => if i < xs.length then i else i + 1)) ∧
    (∀ (xs : List Feature) (ys : List (Option Feature)),
      (∀ f ∈ xs, featureContains polyValid inPoly pt f = false) →
      checkPolygonContainmentJs polyValid inPoly pt
        (some (xs.map Option.some ++ none :: ys)) = Except.error ()) := by
  refine ⟨?_, ?_, ?_⟩
  · intro fs
    exact containLoopJs_map_some (featureContains polyValid inPoly pt) fs 0
  · intro b hb xs ys
    exact checkPolygonContainment_skip polyValid inPoly pt b hb xs ys
  · intro xs ys hfalse
    exact containLoopJs_missing (featureContains polyValid inPoly pt) xs ys 0 hfalse

/-- C7 amended witness: the skip part at a non-Polygon entry inserted
before a one-feature collection (the hit moves from index 0 to index 1),
and the throwing part at a missing-geometry entry behind that same
non-containing entry. -/
theorem claim_C7_amended_witness :
    (checkPolygonContainment (fun _ => true) (fun _ _ => true) (0, 0)
        (some ([] ++ (⟨false, []⟩ : Feature) :: [⟨true, []⟩])) =
      (checkPolygonContainment (fun _ => true) (fun _ _ => true) (0, 0)
          (some ([] ++ [(⟨true, []⟩ : Feature)]))).map
        (fun i => if i < ([] : List Feature).length then i else i + 1)) ∧
    checkPolygonContainmentJs (fun _ => true) (fun _ _ => true) (0, 0)
        (some (([(⟨false, []⟩ : Feature)]).map Option.some ++ none :: [])) =
      Except.error () :=
  ⟨(claim_C7_amended (fun _ => true) (fun _ _ => true) (0, 0)).2.1 ⟨false, []⟩ (Or.inl rfl)
      [] [⟨true, []⟩],
   (claim_C7_amended (fun _ => true) (fun _ _ => true) (0, 0)).2.2 [⟨false, []⟩] []
      (by intro f hf; rw [List.mem_singleton] at hf; subst hf; rfl)⟩

end GeoFence
